import Mathlib

/-!
Verification of the stockalert divergence-detection core.

Shallow embedding of the Python sources in `app/` over exact rationals:
  * `app/divergence.py` — pivot detection, hidden-bullish divergence, trend gate
  * `app/indicators/rsi.py`, `app/indicators/tsi.py` — momentum indicators
  * `app/services/historical_loader.py` — tiered bar loading
  * `app/services/monitor_service.py` — rolling buffer maintenance
  * `app/services/monitor_manager.py` — monitor registry

Series are lists of rationals indexed positionally (a price series and its
indicator share one strictly increasing timestamp index in the code, so a
position stands for its timestamp).  Pandas NaN propagation is modelled with
`Option`: a missing value is `none`, and comparisons against a missing value
are false, matching pandas/numpy comparison semantics.
-/

namespace StockAlert

/-- `l[-n:]` — the last `n` elements of a list (all of them when `n ≥ length`). -/
def takeLast (n : ℕ) (l : List α) : List α := l.drop (l.length - n)

theorem takeLast_length (n : ℕ) (l : List α) : (takeLast n l).length = min n l.length := by
  simp [takeLast]
  omega

theorem takeLast_all {n : ℕ} {l : List α} (h : l.length ≤ n) : takeLast n l = l := by
  simp [takeLast, Nat.sub_eq_zero_of_le h]

theorem takeLast_takeLast (m n : ℕ) (l : List α) :
    takeLast m (takeLast n l) = takeLast (min m n) l := by
  simp [takeLast, List.drop_drop]
  congr 1
  omega

/-- `series.min()` of pandas on a NaN-free series: `none` on the empty series
(pandas yields NaN there, which compares false against everything). -/
def listMin : List ℚ → Option ℚ
  | [] => none
  | x :: xs =>
    match listMin xs with
    | none => some x
    | some m => some (min x m)

/-- `series.max()` of pandas on a NaN-free series. -/
def listMax : List ℚ → Option ℚ
  | [] => none
  | x :: xs =>
    match listMax xs with
    | none => some x
    | some m => some (max x m)

theorem listMin_eq_some_iff {l : List ℚ} {c : ℚ} :
    listMin l = some c ↔ c ∈ l ∧ ∀ x ∈ l, c ≤ x := by
  induction l generalizing c with
  | nil => simp [listMin]
  | cons x xs ih =>
    cases h : listMin xs with
    | none =>
      have hnil : xs = [] := by
        cases xs with
        | nil => rfl
        | cons y ys => simp [listMin] at h; cases hm : listMin ys <;> simp [hm] at h
      subst hnil
      simp [listMin]
      constructor
      · rintro rfl; simp
      · rintro ⟨rfl | h, _⟩ <;> simp_all
    | some m =>
      obtain ⟨hmem, hlb⟩ := ih.mp h
      simp only [listMin, h]
      constructor
      · rintro hc
        have hc' : min x m = c := by simpa using hc
        rcases le_total x m with hxm | hmx
        · have : c = x := by rw [← hc']; exact min_eq_left hxm
          subst this
          refine ⟨by simp, ?_⟩
          intro y hy
          rcases List.mem_cons.mp hy with rfl | hy
          · exact le_refl _
          · exact le_trans hxm (hlb _ hy)
        · have : c = m := by rw [← hc']; exact min_eq_right hmx
          subst this
          refine ⟨List.mem_cons_of_mem _ hmem, ?_⟩
          intro y hy
          rcases List.mem_cons.mp hy with rfl | hy
          · exact hmx
          · exact hlb _ hy
      · rintro ⟨hcmem, hclb⟩
        have hcx : c ≤ x := hclb _ (by simp)
        have hcm : c ≤ m := hclb _ (List.mem_cons_of_mem _ hmem)
        rcases List.mem_cons.mp hcmem with rfl | hcmem'
        · simp [min_eq_left hcm]
        · have hmc : m ≤ c := hlb _ hcmem'
          have : m = c := le_antisymm hmc hcm
          subst this
          simp [min_eq_right hcx]

theorem listMax_eq_some_iff {l : List ℚ} {c : ℚ} :
    listMax l = some c ↔ c ∈ l ∧ ∀ x ∈ l, x ≤ c := by
  induction l generalizing c with
  | nil => simp [listMax]
  | cons x xs ih =>
    cases h : listMax xs with
    | none =>
      have hnil : xs = [] := by
        cases xs with
        | nil => rfl
        | cons y ys => simp [listMax] at h; cases hm : listMax ys <;> simp [hm] at h
      subst hnil
      simp [listMax]
      constructor
      · rintro rfl; simp
      · rintro ⟨rfl | h, _⟩ <;> simp_all
    | some m =>
      obtain ⟨hmem, hub⟩ := ih.mp h
      simp only [listMax, h]
      constructor
      · rintro hc
        have hc' : max x m = c := by simpa using hc
        rcases le_total x m with hxm | hmx
        · have : c = m := by rw [← hc']; exact max_eq_right hxm
          subst this
          refine ⟨List.mem_cons_of_mem _ hmem, ?_⟩
          intro y hy
          rcases List.mem_cons.mp hy with rfl | hy
          · exact hxm
          · exact hub _ hy
        · have : c = x := by rw [← hc']; exact max_eq_left hmx
          subst this
          refine ⟨by simp, ?_⟩
          intro y hy
          rcases List.mem_cons.mp hy with rfl | hy
          · exact le_refl _
          · exact le_trans (hub _ hy) hmx
      · rintro ⟨hcmem, hcub⟩
        have hxc : x ≤ c := hcub _ (by simp)
        have hmc : m ≤ c := hcub _ (List.mem_cons_of_mem _ hmem)
        rcases List.mem_cons.mp hcmem with rfl | hcmem'
        · simp [max_eq_left hmc]
        · have hcm : c ≤ m := hub _ hcmem'
          have : m = c := le_antisymm hmc hcm
          subst this
          simp [max_eq_right hxc]

/-- The values of `vals` at positions `s, s+1, …, s+m-1`, the embedding of an
in-bounds `iloc[s : s+m]` slice. -/
def winVals (vals : List ℚ) (s m : ℕ) : List ℚ :=
  (List.range' s m).map fun j => vals.getD j 0

theorem mem_winVals {vals : List ℚ} {s m : ℕ} {x : ℚ} :
    x ∈ winVals vals s m ↔ ∃ j, s ≤ j ∧ j < s + m ∧ x = vals.getD j 0 := by
  simp only [winVals, List.mem_map, List.mem_range'_1]
  constructor
  · rintro ⟨j, ⟨h1, h2⟩, rfl⟩; exact ⟨j, h1, h2, rfl⟩
  · rintro ⟨j, h1, h2, rfl⟩; exact ⟨j, ⟨h1, h2⟩, rfl⟩

/-- `c < slice.min()` as the code writes it: false on an empty slice
(pandas: the min of an empty slice is NaN and `c < NaN` is false). -/
def ltMin (c : ℚ) (l : List ℚ) : Bool :=
  match listMin l with
  | none => false
  | some m => decide (c < m)

/-- `c > slice.max()` as the code writes it: false on an empty slice. -/
def gtMax (c : ℚ) (l : List ℚ) : Bool :=
  match listMax l with
  | none => false
  | some m => decide (m < c)

theorem ltMin_eq_true_iff {c : ℚ} {l : List ℚ} :
    ltMin c l = true ↔ l ≠ [] ∧ ∀ x ∈ l, c < x := by
  cases h : listMin l with
  | none =>
    have hnil : l = [] := by
      cases l with
      | nil => rfl
      | cons y ys => simp [listMin] at h; cases hm : listMin ys <;> simp [hm] at h
    subst hnil; simp [ltMin, h]
  | some m =>
    obtain ⟨hmem, hlb⟩ := listMin_eq_some_iff.mp h
    simp only [ltMin, h, decide_eq_true_eq]
    constructor
    · intro hcm
      exact ⟨by rintro rfl; simp at hmem, fun x hx => lt_of_lt_of_le hcm (hlb x hx)⟩
    · rintro ⟨_, hall⟩
      exact hall m hmem

theorem gtMax_eq_true_iff {c : ℚ} {l : List ℚ} :
    gtMax c l = true ↔ l ≠ [] ∧ ∀ x ∈ l, x < c := by
  cases h : listMax l with
  | none =>
    have hnil : l = [] := by
      cases l with
      | nil => rfl
      | cons y ys => simp [listMax] at h; cases hm : listMax ys <;> simp [hm] at h
    subst hnil; simp [gtMax, h]
  | some m =>
    obtain ⟨hmem, hub⟩ := listMax_eq_some_iff.mp h
    simp only [gtMax, h, decide_eq_true_eq]
    constructor
    · intro hcm
      exact ⟨by rintro rfl; simp at hmem, fun x hx => lt_of_le_of_lt (hub x hx) hcm⟩
    · rintro ⟨_, hall⟩
      exact hall m hmem

/-!  `find_pivot_lows` / `find_pivot_highs` from `app/divergence.py`.

For each interior position `i ∈ [k, n-k)` the code takes
`left = close.iloc[i-k : i]`, `right = close.iloc[i+1 : i+k+1]`,
`c = vals[i]`, and keeps `i` when `c == close.iloc[i-k : i+k+1].min()`
and, in strict mode, `c < left.min()` and `c < right.min()`.  -/

/-- Body of the loop of `find_pivot_lows` for one candidate position. -/
def pivotLowAt (vals : List ℚ) (k : ℕ) (strict : Bool) (i : ℕ) : Bool :=
  let c := vals.getD i 0
  (listMin (winVals vals (i - k) (2 * k + 1)) == some c) &&
    (!strict || (ltMin c (winVals vals (i - k) k) && ltMin c (winVals vals (i + 1) k)))

/-- `find_pivot_lows(close, k, strict)` (`app/divergence.py:90`), returning
positions instead of the timestamps that label them. -/
def find_pivot_lows (vals : List ℚ) (k : ℕ) (strict : Bool) : List ℕ :=
  (List.range' k (vals.length - 2 * k)).filter (pivotLowAt vals k strict)

/-- Body of the loop of `find_pivot_highs` for one candidate position. -/
def pivotHighAt (vals : List ℚ) (k : ℕ) (strict : Bool) (i : ℕ) : Bool :=
  let c := vals.getD i 0
  (listMax (winVals vals (i - k) (2 * k + 1)) == some c) &&
    (!strict || (gtMax c (winVals vals (i - k) k) && gtMax c (winVals vals (i + 1) k)))

/-- `find_pivot_highs(close, k, strict)` (`app/divergence.py:146`). -/
def find_pivot_highs (vals : List ℚ) (k : ℕ) (strict : Bool) : List ℕ :=
  (List.range' k (vals.length - 2 * k)).filter (pivotHighAt vals k strict)

/-- The spec's membership condition for a pivot low, transcribed from the
spec's words: `i` is an interior position of `[k, n-k)`; non-strict: `value(i)`
equals the minimum of the window `[i-k, i+k]`; strict: `value(i)` is strictly
less than every value in the `k` positions before `i` and in the `k` positions
after `i`. -/
def pivotLowSpecAt (vals : List ℚ) (k : ℕ) (strict : Bool) (i : ℕ) : Bool :=
  decide (k ≤ i) && decide (i + k < vals.length) &&
    (if strict then
      ((List.range' (i - k) k).all fun j => decide (vals.getD i 0 < vals.getD j 0)) &&
        ((List.range' (i + 1) k).all fun j => decide (vals.getD i 0 < vals.getD j 0))
    else
      (List.range' (i - k) (2 * k + 1)).all fun j => decide (vals.getD i 0 ≤ vals.getD j 0))

theorem forall_winVals_iff {vals : List ℚ} {s m : ℕ} {P : ℚ → Prop} :
    (∀ x ∈ winVals vals s m, P x) ↔ ∀ j, s ≤ j → j < s + m → P (vals.getD j 0) := by
  constructor
  · intro h j h1 h2
    exact h _ (mem_winVals.mpr ⟨j, h1, h2, rfl⟩)
  · intro h x hx
    obtain ⟨j, h1, h2, rfl⟩ := mem_winVals.mp hx
    exact h j h1 h2

theorem winVals_ne_nil {vals : List ℚ} {s m : ℕ} (hm : 1 ≤ m) : winVals vals s m ≠ [] := by
  have : (winVals vals s m).length = m := by
    simp [winVals]
  intro hnil
  rw [hnil] at this
  simp at this
  omega

theorem ltMin_winVals_iff {c : ℚ} {vals : List ℚ} {s m : ℕ} (hm : 1 ≤ m) :
    ltMin c (winVals vals s m) = true ↔ ∀ j, s ≤ j → j < s + m → c < vals.getD j 0 := by
  rw [ltMin_eq_true_iff]
  constructor
  · rintro ⟨_, h⟩
    exact forall_winVals_iff.mp h
  · intro h
    exact ⟨winVals_ne_nil hm, forall_winVals_iff.mpr h⟩

theorem gtMax_winVals_iff {c : ℚ} {vals : List ℚ} {s m : ℕ} (hm : 1 ≤ m) :
    gtMax c (winVals vals s m) = true ↔ ∀ j, s ≤ j → j < s + m → vals.getD j 0 < c := by
  rw [gtMax_eq_true_iff]
  constructor
  · rintro ⟨_, h⟩
    exact forall_winVals_iff.mp h
  · intro h
    exact ⟨winVals_ne_nil hm, forall_winVals_iff.mpr h⟩

theorem range'_all_iff {s m : ℕ} {f : ℕ → Bool} :
    (List.range' s m).all f = true ↔ ∀ j, s ≤ j → j < s + m → f j = true := by
  rw [List.all_eq_true]
  constructor
  · intro h j h1 h2
    exact h _ (List.mem_range'_1.mpr ⟨h1, h2⟩)
  · intro h x hx
    obtain ⟨h1, h2⟩ := List.mem_range'_1.mp hx
    exact h _ h1 h2

theorem pivotLowAt_false (vals : List ℚ) (k i : ℕ) :
    pivotLowAt vals k false i =
      (listMin (winVals vals (i - k) (2 * k + 1)) == some (vals.getD i 0)) := by
  simp [pivotLowAt]

theorem pivotLowAt_true (vals : List ℚ) (k i : ℕ) :
    pivotLowAt vals k true i =
      ((listMin (winVals vals (i - k) (2 * k + 1)) == some (vals.getD i 0)) &&
        (ltMin (vals.getD i 0) (winVals vals (i - k) k) &&
          ltMin (vals.getD i 0) (winVals vals (i + 1) k))) := by
  simp [pivotLowAt]

theorem pivotHighAt_false (vals : List ℚ) (k i : ℕ) :
    pivotHighAt vals k false i =
      (listMax (winVals vals (i - k) (2 * k + 1)) == some (vals.getD i 0)) := by
  simp [pivotHighAt]

theorem pivotHighAt_true (vals : List ℚ) (k i : ℕ) :
    pivotHighAt vals k true i =
      ((listMax (winVals vals (i - k) (2 * k + 1)) == some (vals.getD i 0)) &&
        (gtMax (vals.getD i 0) (winVals vals (i - k) k) &&
          gtMax (vals.getD i 0) (winVals vals (i + 1) k))) := by
  simp [pivotHighAt]

theorem pivotLowSpecAt_false (vals : List ℚ) (k i : ℕ) :
    pivotLowSpecAt vals k false i =
      (decide (k ≤ i) && decide (i + k < vals.length) &&
        (List.range' (i - k) (2 * k + 1)).all fun j =>
          decide (vals.getD i 0 ≤ vals.getD j 0)) := by
  simp [pivotLowSpecAt]

theorem pivotLowSpecAt_true (vals : List ℚ) (k i : ℕ) :
    pivotLowSpecAt vals k true i =
      (decide (k ≤ i) && decide (i + k < vals.length) &&
        (((List.range' (i - k) k).all fun j => decide (vals.getD i 0 < vals.getD j 0)) &&
          (List.range' (i + 1) k).all fun j => decide (vals.getD i 0 < vals.getD j 0))) := by
  simp [pivotLowSpecAt]

theorem pivotLowAt_iff_spec {vals : List ℚ} {k i : ℕ} {strict : Bool} (hk : 1 ≤ k)
    (hki : k ≤ i) (hin : i + k < vals.length) :
    pivotLowAt vals k strict i = true ↔ pivotLowSpecAt vals k strict i = true := by
  cases strict with
  | false =>
    rw [pivotLowAt_false, pivotLowSpecAt_false]
    simp only [Bool.and_eq_true, beq_iff_eq, decide_eq_true_eq, range'_all_iff]
    rw [listMin_eq_some_iff]
    constructor
    · rintro ⟨_, hall⟩
      refine ⟨⟨hki, hin⟩, ?_⟩
      intro j h1 h2
      exact forall_winVals_iff.mp hall j h1 h2
    · rintro ⟨_, hall⟩
      refine ⟨?_, ?_⟩
      · exact mem_winVals.mpr ⟨i, by omega, by omega, rfl⟩
      · refine forall_winVals_iff.mpr ?_
        intro j h1 h2
        exact hall j h1 h2
  | true =>
    rw [pivotLowAt_true, pivotLowSpecAt_true]
    simp only [Bool.and_eq_true, beq_iff_eq, decide_eq_true_eq, range'_all_iff]
    constructor
    · rintro ⟨_, hl, hr⟩
      refine ⟨⟨hki, hin⟩, ?_, ?_⟩
      · intro j h1 h2
        exact (ltMin_winVals_iff hk).mp hl j h1 h2
      · intro j h1 h2
        exact (ltMin_winVals_iff hk).mp hr j h1 h2
    · rintro ⟨_, hl, hr⟩
      have hl' : ltMin (vals.getD i 0) (winVals vals (i - k) k) = true :=
        (ltMin_winVals_iff hk).mpr hl
      have hr' : ltMin (vals.getD i 0) (winVals vals (i + 1) k) = true :=
        (ltMin_winVals_iff hk).mpr hr
      refine ⟨?_, hl', hr'⟩
      rw [listMin_eq_some_iff]
      refine ⟨mem_winVals.mpr ⟨i, by omega, by omega, rfl⟩, ?_⟩
      refine forall_winVals_iff.mpr ?_
      intro j h1 h2
      rcases lt_trichotomy j i with hj | rfl | hj
      · exact le_of_lt ((ltMin_winVals_iff hk).mp hl' j h1 (by omega))
      · exact le_refl _
      · exact le_of_lt ((ltMin_winVals_iff hk).mp hr' j (by omega) (by omega))

theorem mem_find_pivot_lows_iff {vals : List ℚ} {k : ℕ} {strict : Bool} {i : ℕ} :
    i ∈ find_pivot_lows vals k strict ↔
      (k ≤ i ∧ i + k < vals.length) ∧ pivotLowAt vals k strict i = true := by
  simp only [find_pivot_lows, List.mem_filter, List.mem_range'_1]
  constructor
  · rintro ⟨⟨h1, h2⟩, h3⟩
    exact ⟨⟨h1, by omega⟩, h3⟩
  · rintro ⟨⟨h1, h2⟩, h3⟩
    exact ⟨⟨h1, by omega⟩, h3⟩

theorem mem_find_pivot_highs_iff {vals : List ℚ} {k : ℕ} {strict : Bool} {i : ℕ} :
    i ∈ find_pivot_highs vals k strict ↔
      (k ≤ i ∧ i + k < vals.length) ∧ pivotHighAt vals k strict i = true := by
  simp only [find_pivot_highs, List.mem_filter, List.mem_range'_1]
  constructor
  · rintro ⟨⟨h1, h2⟩, h3⟩
    exact ⟨⟨h1, by omega⟩, h3⟩
  · rintro ⟨⟨h1, h2⟩, h3⟩
    exact ⟨⟨h1, by omega⟩, h3⟩

theorem pivotLowSpecAt_bounds {vals : List ℚ} {k : ℕ} {strict : Bool} {i : ℕ}
    (h : pivotLowSpecAt vals k strict i = true) : k ≤ i ∧ i + k < vals.length := by
  cases strict with
  | false =>
    rw [pivotLowSpecAt_false] at h
    simp only [Bool.and_eq_true, decide_eq_true_eq] at h
    exact h.1
  | true =>
    rw [pivotLowSpecAt_true] at h
    simp only [Bool.and_eq_true, decide_eq_true_eq] at h
    exact h.1

/-- C2 (counterexample): at window size `k = 0` in strict mode the claim fails.
The spec condition is vacuously satisfied at position 0 of the series `[0, 1]`
(there are no positions before or after to compare against), but the code
compares against the min of an empty slice — NaN in pandas — which is false,
so `find_pivot_lows` returns no pivot at all. -/
theorem find_pivot_lows_k0_counterexample :
    ¬ (0 ∈ find_pivot_lows [(0 : ℚ), 1] 0 true ↔
        pivotLowSpecAt [(0 : ℚ), 1] 0 true 0 = true) := by
  decide

/-- C2 (amended, `k ≥ 1`): pivot-low detection returns exactly the interior
positions `i ∈ [k, n-k)` whose value equals the window minimum (non-strict) or
is strictly below every value in the `k` positions before and after (strict);
the first `k` and last `k` positions are never returned. -/
theorem find_pivot_lows_spec (vals : List ℚ) (k : ℕ) (strict : Bool) (i : ℕ) (hk : 1 ≤ k) :
    i ∈ find_pivot_lows vals k strict ↔ pivotLowSpecAt vals k strict i = true := by
  rw [mem_find_pivot_lows_iff]
  constructor
  · rintro ⟨⟨h1, h2⟩, h3⟩
    exact (pivotLowAt_iff_spec hk h1 h2).mp h3
  · intro h
    obtain ⟨h1, h2⟩ := pivotLowSpecAt_bounds h
    exact ⟨⟨h1, h2⟩, (pivotLowAt_iff_spec hk h1 h2).mpr h⟩

/-- C2 (witness): on the series `[3, 1, 3]` with `k = 1`, position 1 is a strict
pivot low and the spec condition agrees. -/
theorem find_pivot_lows_spec_witness :
    1 ≤ 1 ∧
      (1 ∈ find_pivot_lows [(3 : ℚ), 1, 3] 1 true ↔
        pivotLowSpecAt [(3 : ℚ), 1, 3] 1 true 1 = true) :=
  ⟨by decide, find_pivot_lows_spec [(3 : ℚ), 1, 3] 1 true 1 (by decide)⟩

/-- C10: for every series and window size, and for both pivot kinds, the
positions found in strict mode are a subset of those found in non-strict mode:
the strict check only conjoins extra conditions onto the window-extremum check. -/
theorem strict_pivots_subset_nonstrict (vals : List ℚ) (k : ℕ) :
    find_pivot_lows vals k true ⊆ find_pivot_lows vals k false ∧
      find_pivot_highs vals k true ⊆ find_pivot_highs vals k false := by
  constructor
  · intro i hi
    rw [mem_find_pivot_lows_iff] at hi ⊢
    refine ⟨hi.1, ?_⟩
    have h3 := hi.2
    rw [pivotLowAt_true] at h3
    rw [pivotLowAt_false]
    simp only [Bool.and_eq_true] at h3
    exact h3.1
  · intro i hi
    rw [mem_find_pivot_highs_iff] at hi ⊢
    refine ⟨hi.1, ?_⟩
    have h3 := hi.2
    rw [pivotHighAt_true] at h3
    rw [pivotHighAt_false]
    simp only [Bool.and_eq_true] at h3
    exact h3.1

/-!  Exponential moving average and the trend gate of `app/divergence.py`. -/

/-- Tail of the `ewm(span, adjust=False)` recurrence:
`E_t = a*x_t + (1-a)*E_(t-1)`, continuing from the accumulator `e`. -/
def emaFrom (a : ℚ) (e : ℚ) : List ℚ → List ℚ
  | [] => []
  | x :: xs =>
    let e2 := a * x + (1 - a) * e
    e2 :: emaFrom a e2 xs

/-- `series.ewm(span=period, adjust=False).mean()` on a NaN-free series:
smoothing weight `a = 2/(period+1)`, seeded at the first sample (`_ema` in
`app/divergence.py:74`). -/
def emaList (period : ℕ) : List ℚ → List ℚ
  | [] => []
  | x :: xs => x :: emaFrom (2 / ((period : ℚ) + 1)) x xs

/-- `series.iloc[-1]` (0 on an empty series; callers guard non-emptiness). -/
def lastD (l : List ℚ) : ℚ := l.getD (l.length - 1) 0

/-- The two relevant settings read by the trend gate (`settings.use_trend_filter`
and `settings.ema_period` in `app/config.py`). -/
structure TrendCfg where
  useTrendFilter : Bool
  emaPeriod : ℕ
deriving DecidableEq, Repr

/-- `_bull_trend_ok(close)` (`app/divergence.py:202`) on a NaN-free window:
gate passes outright when the filter is off; fails closed when fewer than
`ema_period + 5` observations; otherwise requires the latest close strictly
above the trailing EMA. -/
def bullTrendOk (cfg : TrendCfg) (s : List ℚ) : Bool :=
  if cfg.useTrendFilter = false then true
  else if s.length < cfg.emaPeriod + 5 then false
  else decide (lastD (emaList cfg.emaPeriod s) < lastD s)

theorem bullTrendOk_iff {cfg : TrendCfg} {s : List ℚ} :
    bullTrendOk cfg s = true ↔
      (cfg.useTrendFilter = false ∨
        (cfg.emaPeriod + 5 ≤ s.length ∧ lastD (emaList cfg.emaPeriod s) < lastD s)) := by
  unfold bullTrendOk
  split_ifs with h1 h2
  · simp [h1]
  · simp only [Bool.false_eq_true, false_iff]
    push_neg
    refine ⟨fun hc => absurd hc h1, ?_⟩
    intro hlen
    omega
  · simp only [decide_eq_true_eq]
    constructor
    · intro hlt
      exact Or.inr ⟨by omega, hlt⟩
    · rintro (hc | ⟨_, hlt⟩)
      · exact absurd hc h1
      · exact hlt

/-- The record returned on a detection: first and second pivot (timestamps,
here positions in the trailing window), price and indicator value at the
second pivot. -/
structure DivRecord where
  p1_ts : ℕ
  p2_ts : ℕ
  price : ℚ
  indicator_value : ℚ
deriving DecidableEq, Repr

/-- `detect_hidden_bullish(close, ind, lookback, k)` (`app/divergence.py:280`):
trailing `lookback` window, strict pivot lows with window `k`, requires price
higher low together with indicator lower low, then the bullish trend gate. -/
def detect_hidden_bullish (cfg : TrendCfg) (close ind : List ℚ) (lookback k : ℕ) :
    Option DivRecord :=
  let sc := takeLast lookback close
  let si := takeLast lookback ind
  let piv := find_pivot_lows sc k true
  if piv.length < 2 then none
  else
    let p1 := piv.getD (piv.length - 2) 0
    let p2 := piv.getD (piv.length - 1) 0
    if sc.getD p1 0 < sc.getD p2 0 ∧ si.getD p2 0 < si.getD p1 0 then
      if bullTrendOk cfg sc then some ⟨p1, p2, sc.getD p2 0, si.getD p2 0⟩
      else none
    else none

/-- C1: `detect_hidden_bullish` returns a detection exactly when the trailing
lookback window holds at least two (strict) pivot lows, price at the most
recent pivot is strictly above price at the second-most-recent, the indicator
at the most recent is strictly below, and the trend gate passes — where the
gate always passes when the trend filter is disabled and, when enabled, fails
closed whenever the window has fewer than `ema_period + 5` observations; the
returned record carries the two pivot timestamps and the price and indicator
value at the second pivot. -/
theorem detect_hidden_bullish_spec (cfg : TrendCfg) (close ind : List ℚ)
    (lookback k : ℕ) (r : DivRecord) (hlen : ind.length = close.length) :
    detect_hidden_bullish cfg close ind lookback k = some r ↔
      (let sc := takeLast lookback close
       let si := takeLast lookback ind
       let piv := find_pivot_lows sc k true
       let p1 := piv.getD (piv.length - 2) 0
       let p2 := piv.getD (piv.length - 1) 0
       2 ≤ piv.length ∧
         sc.getD p1 0 < sc.getD p2 0 ∧
         si.getD p2 0 < si.getD p1 0 ∧
         (cfg.useTrendFilter = false ∨
           (cfg.emaPeriod + 5 ≤ sc.length ∧ lastD (emaList cfg.emaPeriod sc) < lastD sc)) ∧
         r = ⟨p1, p2, sc.getD p2 0, si.getD p2 0⟩) := by
  clear hlen
  simp only [detect_hidden_bullish]
  split_ifs with h1 h2 h3
  · constructor
    · intro h
      simp at h
    · rintro ⟨h, _⟩
      omega
  · constructor
    · intro h
      exact ⟨by omega, h2.1, h2.2, bullTrendOk_iff.mp h3, (Option.some.inj h).symm⟩
    · rintro ⟨_, _, _, _, rfl⟩
      rfl
  · constructor
    · intro h
      simp at h
    · rintro ⟨_, _, _, hgate, _⟩
      exact absurd (bullTrendOk_iff.mpr hgate) h3
  · constructor
    · intro h
      simp at h
    · rintro ⟨_, ha, hb, _, _⟩
      exact absurd ⟨ha, hb⟩ h2

/-- C1 (witness): on `close = [3,1,3,2,4]`, `ind = [0,5,0,3,0]` with
`lookback = 5`, `k = 1` and the trend filter disabled, the pivots are positions
1 and 3, price makes a higher low, the indicator a lower low, and the detection
record is returned. -/
theorem detect_hidden_bullish_spec_witness :
    ([(0 : ℚ), 5, 0, 3, 0] : List ℚ).length = ([(3 : ℚ), 1, 3, 2, 4] : List ℚ).length ∧
      detect_hidden_bullish ⟨false, 50⟩ [(3 : ℚ), 1, 3, 2, 4] [(0 : ℚ), 5, 0, 3, 0] 5 1 =
        some ⟨1, 3, 2, 3⟩ :=
  ⟨by decide,
    (detect_hidden_bullish_spec ⟨false, 50⟩ [(3 : ℚ), 1, 3, 2, 4] [(0 : ℚ), 5, 0, 3, 0]
      5 1 ⟨1, 3, 2, 3⟩ (by decide)).mpr (by decide)⟩

/-!  Indicators: `RSI.compute` (`app/indicators/rsi.py:41`) and `TSI.compute`
(`app/indicators/tsi.py:53`).  `close.diff()` has NaN at position 0 and the
consecutive deltas afterwards; `np.where` turns the leading NaN of the RSI
gain/loss series into `0.0`, while TSI smooths the deltas directly, so its
EMA chains stay NaN at position 0 and seed at position 1. -/

/-- The consecutive deltas of `close.diff()` with the leading NaN dropped:
`diffs l` holds `delta_1, …, delta_(n-1)`. -/
def diffs (close : List ℚ) : List ℚ :=
  List.zipWith (fun cur prev => cur - prev) close.tail close

/-- `series.bfill().fillna(d)`: every missing value takes the next valid value
after it; if none exists it takes `d`. -/
def bfillFill (d : ℚ) (l : List (Option ℚ)) : List ℚ :=
  (l.foldr (fun x acc => let v := x.getD acc.1; (v, v :: acc.2)) (d, ([] : List ℚ))).2

/-- `RSI(period).compute(close)`: EMA-smoothed gains and losses, RS ratio with
a zero smoothed loss replaced by NaN (`loss_ema.replace(0, np.nan)`), then
`rsi.bfill().fillna(50)`. -/
def rsi_compute (period : ℕ) (close : List ℚ) : List ℚ :=
  match close with
  | [] => []
  | _ :: _ =>
    let ds := diffs close
    let gain : List ℚ := 0 :: ds.map fun d => if 0 < d then d else 0
    let loss : List ℚ := 0 :: ds.map fun d => if d < 0 then -d else 0
    let gainEma := emaList period gain
    let lossEma := emaList period loss
    let rsiOpt := List.zipWith
      (fun g l => if l = 0 then none else some (100 - 100 / (1 + g / l))) gainEma lossEma
    bfillFill 50 rsiOpt

/-- C3 (code evaluation at the failing input): on the strictly rising series
`[1, 2, 3]` every delta is positive, so the smoothed loss is identically 0 —
the claim (and the code's own docstring) say RSI is then 100, but the code
turns the zero loss into NaN, finds no later valid value to backfill from, and
fills the neutral 50 everywhere. -/
theorem rsi_compute_all_gains_eq_50 : rsi_compute 14 [1, 2, 3] = [50, 50, 50] := by
  norm_num [rsi_compute, diffs, emaList, emaFrom, bfillFill]

/-- Doubly smoothed momentum of TSI: `EMA(EMA(diff, long), short)`, positions
1 … n-1 of the series (position 0 is the diff NaN). -/
def tsi_num (long short : ℕ) (close : List ℚ) : List ℚ :=
  emaList short (emaList long (diffs close))

/-- Doubly smoothed absolute momentum of TSI, positions 1 … n-1. -/
def tsi_den (long short : ℕ) (close : List ℚ) : List ℚ :=
  emaList short (emaList long ((diffs close).map abs))

/-- The doubly smoothed absolute momentum aligned with `close`: `none` at
position 0 (NaN), the smoothed values afterwards. -/
def tsi_abs_momentum (long short : ℕ) (close : List ℚ) : List (Option ℚ) :=
  match close with
  | [] => []
  | _ :: _ => none :: (tsi_den long short close).map some

/-- `TSI(long, short).compute(close)`: `100 * num/den` with a zero denominator
replaced by NaN (`ema2_abs_momentum.replace(0, np.nan)`), then
`tsi.bfill().fillna(0)`. -/
def tsi_compute (long short : ℕ) (close : List ℚ) : List ℚ :=
  match close with
  | [] => []
  | _ :: _ =>
    let num := tsi_num long short close
    let den := tsi_den long short close
    let tsiOpt : List (Option ℚ) :=
      none :: List.zipWith (fun m a => if a = 0 then none else some (100 * (m / a))) num den
    bfillFill 0 tsiOpt

/-- C4 (code evaluation at the failing input): on `[5, 5, 6]` the doubly
smoothed absolute momentum at position 1 is 0, but `TSI.compute` yields 100
there — the NaN produced by the zero denominator is backfilled from the later
valid value (`tsi.bfill()`), not assigned the neutral 0 the claim (and the
code's own comments) require. -/
theorem tsi_compute_zero_denominator_counterexample :
    (tsi_abs_momentum 25 13 [(5 : ℚ), 5, 6]).getD 1 none = some 0 ∧
      tsi_compute 25 13 [(5 : ℚ), 5, 6] = [100, 100, 100] := by
  constructor
  · norm_num [tsi_abs_momentum, tsi_den, diffs, emaList, emaFrom]
  · norm_num [tsi_compute, tsi_num, tsi_den, diffs, emaList, emaFrom, bfillFill]

/-!  `HistoricalDataLoader.load_bars` (`app/services/historical_loader.py:49`).

Each tier helper wraps its I/O in `try/except` and returns an empty frame on
failure, so a tier's outcome is modelled as `Except String (List α)` — the raw
result of the underlying I/O — and the helper catches it.  `int(x)` on the
non-negative floats `limit * 1.2` and `limit * threshold` is `⌊x⌋`, taken here
over exact rationals. -/

/-- Which tier served the returned bars. -/
inductive Tier
  | database
  | parquet
  | provider
deriving DecidableEq, Repr

/-- Result of a load: the bars and the tier that produced them. -/
structure LoadResult (α : Type) where
  bars : List α
  tier : Tier
deriving DecidableEq, Repr

/-- `int(q)` for a non-negative rational. -/
def floorNat (q : ℚ) : ℕ := ⌊q⌋.toNat

/-- `ceil(q)` clamped to ℕ, used to state the claim's sufficiency bound. -/
def ceilNat (q : ℚ) : ℕ := ⌈q⌉.toNat

/-- `_load_from_database` (`historical_loader.py:154`): on success the query
returns the most recent `int(limit * 1.2)` in-range bars in ascending order;
any exception is caught and yields an empty frame. -/
def load_from_database (limit : ℕ) (raw : Except String (List α)) : List α :=
  match raw with
  | .ok store => takeLast (floorNat ((limit : ℚ) * (12 / 10))) store
  | .error _ => []

/-- `_load_from_parquet` (`historical_loader.py:199`): the cached in-range
bars, or an empty frame on any exception. -/
def load_from_parquet (raw : Except String (List α)) : List α :=
  match raw with
  | .ok cached => cached
  | .error _ => []

/-- `_fetch_from_provider` (`historical_loader.py:223`): the provider's bars,
or an empty frame on any exception. -/
def fetch_from_provider (raw : Except String (List α)) : List α :=
  match raw with
  | .ok fetched => fetched
  | .error _ => []

/-- `load_bars` (`historical_loader.py:49`): database tier, then the parquet
cache when enabled, then the provider; each tier is accepted when non-empty
with at least `int(limit * threshold)` bars, and the accepted frame is trimmed
to the most recent `limit` bars. -/
def load_bars (limit : ℕ) (threshold : ℚ) (useParquetCache : Bool)
    (dbRaw cacheRaw provRaw : Except String (List α)) : Except String (LoadResult α) := do
  let df := load_from_database limit dbRaw
  let required := floorNat ((limit : ℚ) * threshold)
  if df.isEmpty = false ∧ required ≤ df.length then
    return ⟨takeLast limit df, Tier.database⟩
  if useParquetCache then
    let dfc := load_from_parquet cacheRaw
    if dfc.isEmpty = false ∧ required ≤ dfc.length then
      return ⟨takeLast limit dfc, Tier.parquet⟩
  let dfp := fetch_from_provider provRaw
  if dfp.isEmpty = true then
    return ⟨[], Tier.provider⟩
  return ⟨takeLast limit dfp, Tier.provider⟩

/-- A tier's raw outcome produced nothing: it failed, or it succeeded with an
empty frame. -/
def tierNothing (raw : Except String (List α)) : Bool :=
  match raw with
  | .ok l => l.isEmpty
  | .error _ => true

theorem load_from_database_nothing {limit : ℕ} {raw : Except String (List α)}
    (h : tierNothing raw = true) : load_from_database limit raw = [] := by
  cases raw with
  | error e => rfl
  | ok l =>
    simp only [tierNothing, List.isEmpty_iff] at h
    simp [load_from_database, h, takeLast]

theorem load_from_parquet_nothing {raw : Except String (List α)}
    (h : tierNothing raw = true) : load_from_parquet raw = [] := by
  cases raw with
  | error e => rfl
  | ok l =>
    simp only [tierNothing, List.isEmpty_iff] at h
    simp [load_from_parquet, h]

theorem fetch_from_provider_nothing {raw : Except String (List α)}
    (h : tierNothing raw = true) : fetch_from_provider raw = [] := by
  cases raw with
  | error e => rfl
  | ok l =>
    simp only [tierNothing, List.isEmpty_iff] at h
    simp [fetch_from_provider, h]

/-- C6: `load_bars` never raises: every tier outcome (including failures)
produces an `ok` result; a failed tier is interchangeable with a tier that
returned no bars, so the cascade falls through; and when every tier produces
nothing the call returns the empty result rather than an error. -/
theorem load_bars_never_raises (α : Type) (limit : ℕ) (threshold : ℚ)
    (useParquetCache : Bool) (dbRaw cacheRaw provRaw : Except String (List α)) :
    (∃ r, load_bars limit threshold useParquetCache dbRaw cacheRaw provRaw = Except.ok r) ∧
      (∀ e, load_bars limit threshold useParquetCache (Except.error e) cacheRaw provRaw =
        load_bars limit threshold useParquetCache (Except.ok []) cacheRaw provRaw) ∧
      (∀ e, load_bars limit threshold useParquetCache dbRaw (Except.error e) provRaw =
        load_bars limit threshold useParquetCache dbRaw (Except.ok []) provRaw) ∧
      (∀ e, load_bars limit threshold useParquetCache dbRaw cacheRaw (Except.error e) =
        load_bars limit threshold useParquetCache dbRaw cacheRaw (Except.ok [])) ∧
      (tierNothing dbRaw = true → tierNothing cacheRaw = true → tierNothing provRaw = true →
        load_bars limit threshold useParquetCache dbRaw cacheRaw provRaw =
          Except.ok ⟨[], Tier.provider⟩) := by
  refine ⟨?_, ?_, ?_, ?_, ?_⟩
  · simp only [load_bars]
    split_ifs <;> exact ⟨_, rfl⟩
  · intro e
    simp [load_bars, load_from_database, takeLast]
  · intro e
    simp [load_bars, load_from_parquet]
  · intro e
    simp [load_bars, fetch_from_provider]
  · intro hdb hcache hprov
    simp only [load_bars, load_from_database_nothing hdb, load_from_parquet_nothing hcache,
      fetch_from_provider_nothing hprov]
    simp only [List.isEmpty_nil, List.length_nil]
    split_ifs <;> first | rfl | simp_all

/-- C6 (witness): with the database and cache tiers failing and the provider
returning no bars, the call still succeeds with the empty result. -/
theorem load_bars_never_raises_witness :
    tierNothing (Except.error "db down" : Except String (List ℕ)) = true ∧
      tierNothing (Except.error "cache io" : Except String (List ℕ)) = true ∧
      tierNothing (Except.ok ([] : List ℕ) : Except String (List ℕ)) = true ∧
      load_bars 100 (4 / 5) true (Except.error "db down")
          (Except.error "cache io") (Except.ok ([] : List ℕ)) =
        Except.ok ⟨[], Tier.provider⟩ :=
  ⟨rfl, rfl, rfl,
    (load_bars_never_raises ℕ 100 (4 / 5) true (Except.error "db down")
      (Except.error "cache io") (Except.ok [])).2.2.2.2 rfl rfl rfl⟩

theorem floorNat_natCast (n : ℕ) : floorNat (n : ℚ) = n := by
  simp [floorNat]

theorem ceilNat_natCast (n : ℕ) : ceilNat (n : ℚ) = n := by
  simp [ceilNat]

/-- C5: whenever the persistent store holds at least `ceil(T * s)` in-range
bars, `load_bars` is served by the database tier with the most recent `T` of
the store's bars, never consulting the cache or provider; and with the default
`T = 100`, `s = 0.8`, a store of 50 bars falls through to a later tier. -/
theorem load_bars_database_sufficiency :
    (∀ (α : Type) (store : List α) (cacheRaw provRaw : Except String (List α))
        (useParquetCache : Bool) (T : ℕ) (s : ℚ),
        1 ≤ T → 0 < s → s ≤ 1 → ceilNat ((T : ℚ) * s) ≤ store.length →
        load_bars T s useParquetCache (Except.ok store) cacheRaw provRaw =
          Except.ok ⟨takeLast T store, Tier.database⟩) ∧
      (∀ (cacheRaw provRaw : Except String (List ℕ)) (useParquetCache : Bool),
        ∃ r, load_bars 100 (4 / 5) useParquetCache (Except.ok (List.range 50)) cacheRaw provRaw =
          Except.ok r ∧ r.tier ≠ Tier.database) := by
  constructor
  · intro α store cacheRaw provRaw useParquetCache T s hT hs0 hs1 hstore
    have hTQ : (0 : ℚ) ≤ (T : ℚ) := by positivity
    have hfetch : T ≤ floorNat ((T : ℚ) * (12 / 10)) := by
      have h12 : (T : ℚ) ≤ (T : ℚ) * (12 / 10) := by nlinarith
      have hz : (T : ℤ) ≤ ⌊(T : ℚ) * (12 / 10)⌋ := by
        rw [Int.le_floor]
        push_cast
        exact h12
      unfold floorNat
      omega
    have hreqT : floorNat ((T : ℚ) * s) ≤ T := by
      have hle : (T : ℚ) * s ≤ ((T : ℕ) : ℚ) := by nlinarith
      have hz : ⌊(T : ℚ) * s⌋ ≤ (T : ℤ) := by
        have h2 := Int.floor_le_floor hle
        rwa [Int.floor_natCast] at h2
      unfold floorNat
      omega
    have hreqCeil : floorNat ((T : ℚ) * s) ≤ ceilNat ((T : ℚ) * s) := by
      have h2 := Int.floor_le_ceil ((T : ℚ) * s)
      unfold floorNat ceilNat
      omega
    have hceil1 : 1 ≤ ceilNat ((T : ℚ) * s) := by
      have hTpos : (0 : ℚ) < (T : ℚ) := by
        have : (1 : ℚ) ≤ (T : ℚ) := by exact_mod_cast hT
        linarith
      have hpos : (0 : ℚ) < (T : ℚ) * s := mul_pos hTpos hs0
      have h2 := Int.ceil_pos.mpr hpos
      unfold ceilNat
      omega
    have hdfLen : (takeLast (floorNat ((T : ℚ) * (12 / 10))) store).length =
        min (floorNat ((T : ℚ) * (12 / 10))) store.length := takeLast_length _ _
    have hlen : floorNat ((T : ℚ) * s) ≤
        (takeLast (floorNat ((T : ℚ) * (12 / 10))) store).length := by
      rw [hdfLen]
      omega
    have hne : (takeLast (floorNat ((T : ℚ) * (12 / 10))) store).isEmpty = false := by
      rw [List.isEmpty_eq_false]
      intro hnil
      rw [hnil] at hdfLen
      simp at hdfLen
      omega
    simp only [load_bars, load_from_database]
    rw [if_pos ⟨hne, hlen⟩, takeLast_takeLast]
    have hmin : min T (floorNat ((T : ℚ) * (12 / 10))) = T := by omega
    rw [hmin]
    rfl
  · intro cacheRaw provRaw useParquetCache
    have h80 : floorNat ((100 : ℚ) * (4 / 5)) = 80 := by
      have : ((100 : ℚ) * (4 / 5)) = ((80 : ℕ) : ℚ) := by norm_num
      rw [this, floorNat_natCast]
    have h120 : floorNat ((100 : ℚ) * (12 / 10)) = 120 := by
      have : ((100 : ℚ) * (12 / 10)) = ((120 : ℕ) : ℚ) := by norm_num
      rw [this, floorNat_natCast]
    have hdf : load_from_database 100 (Except.ok (List.range 50)) = List.range 50 := by
      simp only [load_from_database, Nat.cast_ofNat, h120]
      exact takeLast_all (by simp)
    simp only [load_bars, hdf, Nat.cast_ofNat, h80]
    rw [if_neg (by simp)]
    split_ifs <;> exact ⟨_, rfl, by simp⟩

/-- C5 (witness): with `T = 100`, `s = 0.8` and a store holding 85 in-range
bars, the database tier serves the result directly. -/
theorem load_bars_database_sufficiency_witness :
    1 ≤ 100 ∧ (0 : ℚ) < 4 / 5 ∧ (4 : ℚ) / 5 ≤ 1 ∧
      ceilNat ((100 : ℚ) * (4 / 5)) ≤ (List.range 85).length ∧
      load_bars 100 (4 / 5) true (Except.ok (List.range 85))
          (Except.ok ([] : List ℕ)) (Except.ok []) =
        Except.ok ⟨takeLast 100 (List.range 85), Tier.database⟩ := by
  have hceil : ceilNat ((100 : ℚ) * (4 / 5)) ≤ (List.range 85).length := by
    have : ((100 : ℚ) * (4 / 5)) = ((80 : ℕ) : ℚ) := by norm_num
    rw [this, ceilNat_natCast]
    simp
  exact ⟨by norm_num, by norm_num, by norm_num, hceil,
    load_bars_database_sufficiency.1 ℕ (List.range 85) (Except.ok []) (Except.ok [])
      true 100 (4 / 5) (by norm_num) (by norm_num) (by norm_num) hceil⟩

/-!  `MonitorService._process_bar` (`app/services/monitor_service.py:205`):
the per-symbol rolling buffer is a list of bar dicts; each incoming bar is
appended unconditionally and the buffer is trimmed to its `[-2200:]` slice when
its length exceeds 3000.  Only the timestamp matters for the ordering claims;
the close stands for the remaining fields. -/

/-- One buffered bar: its (timezone-normalized) timestamp and close. -/
structure Bar where
  ts : ℤ
  close : ℚ
deriving DecidableEq, Repr

/-- The buffer update in `_process_bar` (`monitor_service.py:244-249`): append,
then trim to the most recent 2200 bars when the length exceeds 3000. -/
def processBarBuffer (buf : List Bar) (b : Bar) : List Bar :=
  let buf2 := buf ++ [b]
  if 3000 < buf2.length then takeLast 2200 buf2 else buf2

/-- C7: starting from any warm-start buffer within the 3000-bar ceiling, the
buffer never exceeds 3000 bars after any number of processed bars; and any
append that pushes the length past 3000 trims to exactly the 2200 most recent
bars, order preserved. -/
theorem rolling_buffer_capacity :
    (∀ (init : List Bar) (bars : List Bar), init.length ≤ 3000 →
        (bars.foldl processBarBuffer init).length ≤ 3000) ∧
      (∀ (buf : List Bar) (b : Bar), 3000 < (buf ++ [b]).length →
        processBarBuffer buf b = takeLast 2200 (buf ++ [b]) ∧
          (processBarBuffer buf b).length = 2200) := by
  constructor
  · intro init bars
    induction bars generalizing init with
    | nil =>
      intro h
      simpa using h
    | cons b rest ih =>
      intro h
      rw [List.foldl_cons]
      apply ih
      simp only [processBarBuffer]
      split_ifs with hgt
      · have := takeLast_length 2200 (init ++ [b])
        omega
      · simp only [List.length_append, List.length_cons, List.length_nil] at hgt ⊢
        omega
  · intro buf b hgt
    simp only [processBarBuffer]
    rw [if_pos hgt]
    refine ⟨rfl, ?_⟩
    rw [takeLast_length]
    simp only [List.length_append, List.length_cons, List.length_nil] at hgt ⊢
    omega

/-- C7 (witness): one bar appended to an empty buffer stays within the
ceiling, and an append onto a full 3000-bar buffer trims to 2200. -/
theorem rolling_buffer_capacity_witness :
    (([] : List Bar).length ≤ 3000 ∧
        (List.foldl processBarBuffer ([] : List Bar) [(⟨0, 1⟩ : Bar)]).length ≤ 3000) ∧
      (3000 < (List.replicate 3000 (⟨0, 1⟩ : Bar) ++ [(⟨0, 1⟩ : Bar)]).length ∧
        (processBarBuffer (List.replicate 3000 (⟨0, 1⟩ : Bar)) ⟨0, 1⟩ =
            takeLast 2200 (List.replicate 3000 (⟨0, 1⟩ : Bar) ++ [(⟨0, 1⟩ : Bar)]) ∧
          (processBarBuffer (List.replicate 3000 (⟨0, 1⟩ : Bar)) ⟨0, 1⟩).length = 2200)) :=
  have hfull : 3000 < (List.replicate 3000 (⟨0, 1⟩ : Bar) ++ [(⟨0, 1⟩ : Bar)]).length := by
    simp only [List.length_append, List.length_replicate, List.length_cons, List.length_nil]
    omega
  ⟨⟨by simp, rolling_buffer_capacity.1 ([] : List Bar) [(⟨0, 1⟩ : Bar)] (by simp)⟩,
    ⟨hfull, rolling_buffer_capacity.2 (List.replicate 3000 (⟨0, 1⟩ : Bar)) ⟨0, 1⟩ hfull⟩⟩

/-- C8 (counterexample): the feed may deliver a bar whose timestamp repeats the
last buffered one; `_process_bar` appends it without any ordering or duplicate
check, so the buffer's timestamps are no longer strictly increasing. -/
theorem buffer_timestamps_duplicate_counterexample :
    ¬ List.Chain' (· < ·) ((processBarBuffer [⟨0, 1⟩] ⟨0, 1⟩).map Bar.ts) := by
  intro h
  have heq : processBarBuffer [⟨0, 1⟩] ⟨0, 1⟩ = [⟨0, 1⟩, ⟨0, 1⟩] := rfl
  rw [heq] at h
  simp [List.chain'_cons] at h

theorem chain'_drop {R : α → α → Prop} {l : List α} (h : List.Chain' R l) (n : ℕ) :
    List.Chain' R (l.drop n) := by
  induction n with
  | zero => simpa using h
  | succ n ih =>
    rw [← List.tail_drop]
    exact ih.tail

/-- C8 (amended): provided each incoming bar's timestamp strictly exceeds
every timestamp already buffered — which is all the feed-ordering the code can
rely on, since `_process_bar` performs no ordering or duplicate check — the
append-and-trim step preserves strictly increasing buffer timestamps. -/
theorem processBarBuffer_strictly_increasing (buf : List Bar) (b : Bar)
    (hchain : List.Chain' (· < ·) (buf.map Bar.ts))
    (hfresh : ∀ x ∈ buf, x.ts < b.ts) :
    List.Chain' (· < ·) ((processBarBuffer buf b).map Bar.ts) := by
  have happ : List.Chain' (· < ·) ((buf ++ [b]).map Bar.ts) := by
    rw [List.map_append]
    rw [List.chain'_append]
    refine ⟨hchain, List.chain'_singleton _, ?_⟩
    intro x hx y hy
    obtain ⟨z, hz, rfl⟩ := List.exists_of_mem_map (List.mem_of_mem_getLast? hx)
    have : y = b.ts := by
      simp only [List.map_cons, List.map_nil, List.head?_cons, Option.mem_def,
        Option.some.injEq] at hy
      exact hy.symm
    subst this
    exact hfresh z hz
  simp only [processBarBuffer]
  split_ifs with hgt
  · rw [takeLast, List.map_drop]
    exact chain'_drop happ _
  · exact happ

/-- C8 (witness): appending a strictly newer bar to a strictly increasing
buffer keeps the timestamps strictly increasing. -/
theorem processBarBuffer_strictly_increasing_witness :
    List.Chain' (· < ·) (([⟨0, 1⟩] : List Bar).map Bar.ts) ∧
      (∀ x ∈ ([⟨0, 1⟩] : List Bar), x.ts < (⟨1, 2⟩ : Bar).ts) ∧
      List.Chain' (· < ·) ((processBarBuffer [⟨0, 1⟩] ⟨1, 2⟩).map Bar.ts) :=
  ⟨by simp, by simp, processBarBuffer_strictly_increasing [⟨0, 1⟩] ⟨1, 2⟩
    (by simp) (by simp)⟩

/-!  `MonitorManager.start_monitor` (`app/services/monitor_manager.py:73`).

The registry `self.monitors` is a dict keyed by
`",".join(sorted(tickers)) + ":" + indicator + ":" + signal_type`; each entry
tracks its asyncio task, modelled by whether the task is done.  Re-starting an
existing key returns `already_running` when the task is alive; a done task is
deleted and a fresh service is created, which fails fast (status `error`) on an
unknown indicator or signal type before any task is registered. -/

/-- One registry entry: the task's done flag and the stored configuration. -/
structure MonitorEntry where
  taskDone : Bool
  tickers : List String
  indicator : String
  signalType : String
deriving DecidableEq, Repr

/-- The manager's registry (`self.monitors`), a key-unique association list. -/
structure ManagerState where
  monitors : List (String × MonitorEntry)
deriving DecidableEq, Repr

/-- Structured outcome of `start_monitor` (the `status` field of the returned
dict). -/
inductive StartOutcome
  | started
  | alreadyRunning
  | error
deriving DecidableEq, Repr

/-- Insert into a sorted list, ascending. -/
def insertSorted (x : String) : List String → List String
  | [] => [x]
  | y :: ys => if x < y then x :: y :: ys else y :: insertSorted x ys

/-- `sorted(tickers)`. -/
def sortStrings (l : List String) : List String := l.foldr insertSorted []

/-- `_get_key(tickers, indicator, signal_type)` (`monitor_manager.py:29`). -/
def monitorKey (tickers : List String) (indicator signalType : String) : String :=
  String.intercalate "," (sortStrings tickers) ++ ":" ++ indicator ++ ":" ++ signalType

/-- Membership in `INDICATOR_MAP` (`monitor_service.py:31`). -/
def validIndicator (s : String) : Bool :=
  s == "rsi" || s == "macd" || s == "tsi"

/-- Membership in `DETECTOR_MAP` (`monitor_service.py:38`). -/
def validSignalType (s : String) : Bool :=
  s == "hidden_bullish_divergence" || s == "hidden_bearish_divergence" ||
    s == "regular_bullish_divergence" || s == "regular_bearish_divergence"

/-- `del self.monitors[key]` (key-unique registry, so removing every binding of
the key removes the one binding). -/
def eraseKey (key : String) (l : List (String × MonitorEntry)) :
    List (String × MonitorEntry) :=
  l.filter fun p => p.1 != key

/-- The construction-and-registration tail of `start_monitor`
(`monitor_manager.py:114-147`): `MonitorService(...)` raises `ValueError` on an
unknown indicator or signal type, caught and returned as status `error`;
otherwise the new task is registered under the key with status `started`. -/
def create_monitor (st : ManagerState) (key : String) (tickers : List String)
    (indicator signalType : String) : StartOutcome × ManagerState :=
  if validIndicator indicator && validSignalType signalType then
    (StartOutcome.started, ⟨(key, ⟨false, tickers, indicator, signalType⟩) :: st.monitors⟩)
  else
    (StartOutcome.error, st)

/-- `start_monitor(tickers, indicator, signal_type)` (`monitor_manager.py:73`). -/
def startMonitor (st : ManagerState) (tickers : List String)
    (indicator signalType : String) : StartOutcome × ManagerState :=
  let key := monitorKey tickers indicator signalType
  match st.monitors.lookup key with
  | some info =>
    if info.taskDone = false then
      (StartOutcome.alreadyRunning, st)
    else
      create_monitor ⟨eraseKey key st.monitors⟩ key tickers indicator signalType
  | none => create_monitor st key tickers indicator signalType

theorem startMonitor_alreadyRunning {st : ManagerState} {tickers : List String}
    {indicator signalType : String} {info : MonitorEntry}
    (hl : st.monitors.lookup (monitorKey tickers indicator signalType) = some info)
    (hd : info.taskDone = false) :
    startMonitor st tickers indicator signalType = (StartOutcome.alreadyRunning, st) := by
  simp [startMonitor, hl, hd]

theorem startMonitor_lookup_some {st : ManagerState} {tickers : List String}
    {indicator signalType : String} {info : MonitorEntry}
    (hl : st.monitors.lookup (monitorKey tickers indicator signalType) = some info) :
    startMonitor st tickers indicator signalType =
      if info.taskDone = false then (StartOutcome.alreadyRunning, st)
      else
        create_monitor ⟨eraseKey (monitorKey tickers indicator signalType) st.monitors⟩
          (monitorKey tickers indicator signalType) tickers indicator signalType := by
  simp [startMonitor, hl]

theorem startMonitor_lookup_none {st : ManagerState} {tickers : List String}
    {indicator signalType : String}
    (hl : st.monitors.lookup (monitorKey tickers indicator signalType) = none) :
    startMonitor st tickers indicator signalType =
      create_monitor st (monitorKey tickers indicator signalType) tickers indicator
        signalType := by
  simp [startMonitor, hl]

theorem startMonitor_started_monitors {st : ManagerState} {tickers : List String}
    {indicator signalType : String}
    (h : (startMonitor st tickers indicator signalType).1 = StartOutcome.started) :
    ∃ rest, (startMonitor st tickers indicator signalType).2.monitors =
      (monitorKey tickers indicator signalType,
        (⟨false, tickers, indicator, signalType⟩ : MonitorEntry)) :: rest := by
  cases hl : (st.monitors.lookup (monitorKey tickers indicator signalType)) with
  | some info =>
    rw [startMonitor_lookup_some hl] at h ⊢
    cases hd : info.taskDone with
    | false =>
      simp [hd] at h
    | true =>
      rw [if_neg (by simp [hd])] at h ⊢
      unfold create_monitor at h ⊢
      by_cases hv : (validIndicator indicator && validSignalType signalType) = true
      · rw [if_pos hv]
        exact ⟨_, rfl⟩
      · rw [if_neg hv] at h
        exact absurd h (by simp)
  | none =>
    rw [startMonitor_lookup_none hl] at h ⊢
    unfold create_monitor at h ⊢
    by_cases hv : (validIndicator indicator && validSignalType signalType) = true
    · rw [if_pos hv]
      exact ⟨_, rfl⟩
    · rw [if_neg hv] at h
      exact absurd h (by simp)

theorem lookup_cons_self {key : String} {v : MonitorEntry}
    (l : List (String × MonitorEntry)) : ((key, v) :: l).lookup key = some v := by
  simp [List.lookup]

theorem lookup_none_not_mem {l : List (String × MonitorEntry)} {key : String}
    (h : l.lookup key = none) : key ∉ l.map Prod.fst := by
  induction l with
  | nil => simp
  | cons hd tl ih =>
    rw [List.lookup] at h
    cases hbeq : (key == hd.1) with
    | true => rw [hbeq] at h; simp at h
    | false =>
      rw [hbeq] at h
      simp only [List.map_cons, List.mem_cons]
      rintro (heq | hmem)
      · rw [heq] at hbeq
        simp at hbeq
      · exact ih h hmem

theorem not_mem_eraseKey_keys (key : String) (l : List (String × MonitorEntry)) :
    key ∉ (eraseKey key l).map Prod.fst := by
  intro hmem
  obtain ⟨p, hp, hfst⟩ := List.exists_of_mem_map hmem
  have := List.mem_filter.mp hp
  rw [hfst] at this
  simp at this

theorem eraseKey_keys_nodup {l : List (String × MonitorEntry)}
    (h : (l.map Prod.fst).Nodup) (key : String) :
    ((eraseKey key l).map Prod.fst).Nodup := by
  exact h.sublist (List.Sublist.map Prod.fst (List.filter_sublist l))

/-- C9: starting an identical configuration while the first instance is alive
returns `already_running` and leaves the registry unchanged — on the second
call and every subsequent one — and key-uniqueness of the registry is
preserved, so no second concurrent instance for the key exists; a registered
but terminated instance is instead evicted and replaced by a fresh one. -/
theorem start_monitor_spec (st : ManagerState) (tickers : List String)
    (indicator signalType : String) :
    (∀ info, st.monitors.lookup (monitorKey tickers indicator signalType) = some info →
        info.taskDone = false →
        startMonitor st tickers indicator signalType = (StartOutcome.alreadyRunning, st)) ∧
      ((startMonitor st tickers indicator signalType).1 = StartOutcome.started →
        startMonitor (startMonitor st tickers indicator signalType).2 tickers indicator
            signalType =
          (StartOutcome.alreadyRunning, (startMonitor st tickers indicator signalType).2) ∧
        ∀ n, (fun s => (startMonitor s tickers indicator signalType).2)^[n]
            (startMonitor st tickers indicator signalType).2 =
          (startMonitor st tickers indicator signalType).2) ∧
      ((st.monitors.map Prod.fst).Nodup →
        ((startMonitor st tickers indicator signalType).2.monitors.map Prod.fst).Nodup) ∧
      (∀ info, st.monitors.lookup (monitorKey tickers indicator signalType) = some info →
        info.taskDone = true → validIndicator indicator = true →
        validSignalType signalType = true →
        (startMonitor st tickers indicator signalType).1 = StartOutcome.started ∧
          (startMonitor st tickers indicator signalType).2.monitors.lookup
              (monitorKey tickers indicator signalType) =
            some ⟨false, tickers, indicator, signalType⟩) := by
  refine ⟨?_, ?_, ?_, ?_⟩
  · intro info hl hd
    exact startMonitor_alreadyRunning hl hd
  · intro h
    obtain ⟨rest, hmon⟩ := startMonitor_started_monitors h
    have hlook : (startMonitor st tickers indicator signalType).2.monitors.lookup
        (monitorKey tickers indicator signalType) =
        some ⟨false, tickers, indicator, signalType⟩ := by
      rw [hmon]
      exact lookup_cons_self rest
    have hsecond := startMonitor_alreadyRunning hlook rfl
    refine ⟨hsecond, fun n => Function.iterate_fixed ?_ n⟩
    show (startMonitor (startMonitor st tickers indicator signalType).2 tickers indicator
      signalType).2 = (startMonitor st tickers indicator signalType).2
    rw [hsecond]
  · intro hnodup
    cases hl : (st.monitors.lookup (monitorKey tickers indicator signalType)) with
    | some info =>
      rw [startMonitor_lookup_some hl]
      cases hd : info.taskDone with
      | false =>
        rw [if_pos rfl]
        exact hnodup
      | true =>
        rw [if_neg (by simp)]
        simp only [create_monitor]
        split_ifs with hv
        · simp only [List.map_cons, List.nodup_cons]
          exact ⟨not_mem_eraseKey_keys _ _, eraseKey_keys_nodup hnodup _⟩
        · exact eraseKey_keys_nodup hnodup _
    | none =>
      rw [startMonitor_lookup_none hl]
      simp only [create_monitor]
      split_ifs with hv
      · simp only [List.map_cons, List.nodup_cons]
        exact ⟨lookup_none_not_mem hl, hnodup⟩
      · exact hnodup
  · intro info hl hd hvi hvs
    have hres : startMonitor st tickers indicator signalType =
        (StartOutcome.started,
          ⟨(monitorKey tickers indicator signalType,
              (⟨false, tickers, indicator, signalType⟩ : MonitorEntry)) ::
            eraseKey (monitorKey tickers indicator signalType) st.monitors⟩) := by
      simp [startMonitor, hl, hd, create_monitor, hvi, hvs]
    rw [hres]
    exact ⟨rfl, lookup_cons_self _⟩

/-- C9 (witness): starting the configuration `(["QQQ"], rsi, hidden bullish)`
on an empty registry succeeds, and starting it again immediately returns
`already_running` with the registry unchanged. -/
theorem start_monitor_spec_witness :
    (startMonitor ⟨[]⟩ ["QQQ"] "rsi" "hidden_bullish_divergence").1 =
        StartOutcome.started ∧
      startMonitor (startMonitor ⟨[]⟩ ["QQQ"] "rsi" "hidden_bullish_divergence").2
          ["QQQ"] "rsi" "hidden_bullish_divergence" =
        (StartOutcome.alreadyRunning,
          (startMonitor ⟨[]⟩ ["QQQ"] "rsi" "hidden_bullish_divergence").2) :=
  have h1 : (startMonitor ⟨[]⟩ ["QQQ"] "rsi" "hidden_bullish_divergence").1 =
      StartOutcome.started := by decide
  ⟨h1, ((start_monitor_spec ⟨[]⟩ ["QQQ"] "rsi" "hidden_bullish_divergence").2.1 h1).1⟩

end StockAlert
